import Mathlib

/-!
Verification of the `updater` self-updating daemon (Go).

Strings are modelled as `List Char`; the Go standard-library helpers the
program relies on (`strings.CutPrefix`, `strings.TrimPrefix`,
`strings.SplitN`, `strings.Split`, `strconv.Atoi`) are given executable
models below; the program functions (`ParseVersion`, `Compare`,
`parsePreRelease`, `isNewer`, `maybeUpgrade`, `main`) are translated
from the source.  Network and filesystem effects are supplied by an
oracle environment (`UpgradeEnv`) recording the result of each
effectful call.
-/

/-- Model of Go `strings.CutPrefix s pfx`: returns `(rest, found)`. -/
def goCutPfx (s pfx : List Char) : List Char × Bool :=
  if pfx.isPrefixOf s then (s.drop pfx.length, true) else (s, false)

/-- Model of Go `strings.TrimPrefix s pfx`. -/
def goTrimPfx (s pfx : List Char) : List Char :=
  if pfx.isPrefixOf s then s.drop pfx.length else s

/-- Splits at the first occurrence of `sep`: `some (before, after)`,
or `none` when `sep` does not occur. -/
def splitFirst (sep : Char) : List Char → Option (List Char × List Char)
  | [] => none
  | c :: cs =>
    if c = sep then some ([], cs)
    else
      match splitFirst sep cs with
      | none => none
      | some (a, b) => some (c :: a, b)

/-- Model of Go `strings.SplitN s (String.singleton sep) n` for `n ≥ 1`:
at most `n` chunks, the last chunk being the unsplit remainder. -/
def goSplitN (sep : Char) : Nat → List Char → List (List Char)
  | 0, _ => []
  | 1, s => [s]
  | Nat.succ n, s =>
    match splitFirst sep s with
    | none => [s]
    | some (a, b) => a :: goSplitN sep n b

/-- Model of Go `strings.Split` (unlimited): `sep` occurs at most
`s.length` times, so `s.length + 1` chunks always suffice. -/
def goSplitAll (sep : Char) (s : List Char) : List (List Char) :=
  goSplitN sep (s.length + 1) s

/-- Numeric value of a digit string (caller checks digits). -/
def digitsToNat (s : List Char) : Nat :=
  s.foldl (fun a c => a * 10 + (c.toNat - 48)) 0

def int64Max : Int := 9223372036854775807
def int64Min : Int := -9223372036854775808

/-- Model of Go `strconv.Atoi`: optional leading sign, then one or more
decimal digits, whole string consumed, value within the signed 64-bit
range (Go `int`); `none` on any error. -/
def goAtoi (s : List Char) : Option Int :=
  match s with
  | [] => none
  | c :: rest =>
    let digits : List Char :=
      if c = '-' ∨ c = '+' then rest else c :: rest
    if digits = [] then none
    else if !digits.all (fun d => d.isDigit) then none
    else
      let n : Int :=
        if c = '-' then -(digitsToNat digits : Int) else (digitsToNat digits : Int)
      if n < int64Min ∨ int64Max < n then none else some n

/-- Go byte-wise string comparison `a < b` (on ASCII data UTF-8 byte
order coincides with code-point order). -/
def goStrLt : List Char → List Char → Bool
  | [], [] => false
  | [], _ :: _ => true
  | _ :: _, [] => false
  | a :: as, b :: bs =>
    if a.toNat < b.toNat then true
    else if b.toNat < a.toNat then false
    else goStrLt as bs

/-! ## The version data model (translated from the source) -/

inductive PreReleaseType where
  | PrereleaseAlpha
  | PrereleaseBeta
  | PrereleaseRC
deriving DecidableEq, Repr

/-- The Go constants are `iota` integers; `Prerelease.Compare` subtracts
them, so we record the integer value of each constructor. -/
def PreReleaseType.toInt : PreReleaseType → Int
  | .PrereleaseAlpha => 0
  | .PrereleaseBeta => 1
  | .PrereleaseRC => 2

structure Prerelease where
  t : PreReleaseType
  version : Int
deriving DecidableEq, Repr

structure versionStruct where
  Original : List Char
  Parsed : Bool
  Numbers : Int × Int × Int
  Pre : Option Prerelease
deriving DecidableEq, Repr

/-- Go source `func (v Prerelease) Compare(other Prerelease) int`. -/
def Prerelease.Compare (v other : Prerelease) : Int :=
  if v.t ≠ other.t then v.t.toInt - other.t.toInt
  else v.version - other.version

/-- The `prereleaseTypeMap` Go map as an association list (insertion
order); iteration order of a Go map is unspecified, which is why the
parser below is parameterised by any permutation of these entries. -/
def prereleaseTypeMap : List (List Char × PreReleaseType) :=
  [("alpha".data, .PrereleaseAlpha),
   ("beta".data, .PrereleaseBeta),
   ("rc".data, .PrereleaseRC)]

/-- Body of the `parsePreRelease` loop, over an explicit entry order:
the first entry whose name is a prefix of `v` decides (success when the
remainder is an Atoi integer, rejection otherwise); later entries are
not consulted. -/
def parsePreReleaseWith : List (List Char × PreReleaseType) → List Char → Option Prerelease
  | [], _ => none
  | (pfx, t) :: entries, v =>
    let cut := goCutPfx v pfx
    if cut.2 then
      match goAtoi cut.1 with
      | none => none
      | some n => some { t := t, version := n }
    else parsePreReleaseWith entries v

/-- Go source `func parsePreRelease(v string) *Prerelease`. -/
def parsePreRelease (v : List Char) : Option Prerelease :=
  parsePreReleaseWith prereleaseTypeMap v

/-- Writes value `x` at index `i` of the `Numbers` triple
(`vs.Numbers[i] = n` in the source; `i` is always `< 3` there). -/
def setNum (ns : Int × Int × Int) (i : Nat) (x : Int) : Int × Int × Int :=
  match i with
  | 0 => (x, ns.2.1, ns.2.2)
  | 1 => (ns.1, x, ns.2.2)
  | 2 => (ns.1, ns.2.1, x)
  | _ => ns

/-- The `for i, num := range core` loop of `ParseVersion`: fills
`Numbers` left to right, stopping (with the partial fill, flag `false`)
at the first field `strconv.Atoi` rejects. -/
def fillNumbers (ns : Int × Int × Int) (i : Nat) : List (List Char) → (Int × Int × Int) × Bool
  | [] => (ns, true)
  | f :: fs =>
    match goAtoi f with
    | none => (ns, false)
    | some n => fillNumbers (setNum ns i n) (i + 1) fs

/-- Go source `func ParseVersion(v string) versionStruct`, parameterised by the
iteration order of `prereleaseTypeMap` (see `parsePreReleaseWith`). -/
def ParseVersionWith (entries : List (List Char × PreReleaseType)) (v : List Char) :
    versionStruct :=
  let vs : versionStruct :=
    { Original := v, Parsed := false, Numbers := (0, 0, 0), Pre := none }
  let cut := goCutPfx v ['v']
  if !cut.2 then vs
  else
    let parts := goSplitN '-' 2 cut.1
    let preStep : Option (Option Prerelease) :=
      if parts.length = 2 then
        match parsePreReleaseWith entries (parts.getD 1 []) with
        | none => none
        | some p => some (some p)
      else some none
    match preStep with
    | none => vs
    | some pre =>
      let fill := fillNumbers (0, 0, 0) 0 (goSplitN '.' 3 (parts.headD []))
      { Original := v, Parsed := fill.2, Numbers := fill.1, Pre := pre }

/-- Go source `func ParseVersion(v string) versionStruct` with the map entries in
insertion order. -/
def ParseVersion (v : List Char) : versionStruct :=
  ParseVersionWith prereleaseTypeMap v

/-- Go source `func (v versionStruct) Compare(other versionStruct) (int, error)`;
the `for i := range 3` loop is unrolled. -/
def versionStruct.Compare (v other : versionStruct) : Except (List Char) Int :=
  if !v.Parsed || !other.Parsed then .error "versionStruct not parsed".data
  else if v.Numbers.1 > other.Numbers.1 then .ok 1
  else if v.Numbers.1 < other.Numbers.1 then .ok (-1)
  else if v.Numbers.2.1 > other.Numbers.2.1 then .ok 1
  else if v.Numbers.2.1 < other.Numbers.2.1 then .ok (-1)
  else if v.Numbers.2.2 > other.Numbers.2.2 then .ok 1
  else if v.Numbers.2.2 < other.Numbers.2.2 then .ok (-1)
  else
    match v.Pre, other.Pre with
    | none, none => .ok 0
    | none, some _ => .ok 1
    | some _, none => .ok (-1)
    | some p, some q => .ok (p.Compare q)

/-! ## The legacy string-based comparator (src/cmd/main/main.go) -/

/-- One pass of the legacy `isNewer` padding loop (the source pads in a
`for` loop until 3 fields; 3 fuel steps always reach length 3 since
`strings.Split` returns at least one chunk). -/
def padCore : Nat → List (List Char) → List (List Char)
  | 0, l => l
  | Nat.succ n, l => if l.length < 3 then padCore n (l ++ [['0']]) else l

def padTo3 (l : List (List Char)) : List (List Char) :=
  padCore 3 l

/-- The `for i := 0; i < 3; i++` core-comparison loop of `isNewer`:
`some b` means the loop returned `b`, `none` means it fell through to
the prerelease comparison.  Both lists have length at least 3 by the
padding, so the `headD` defaults are never consulted. -/
def coreLoop : Nat → List (List Char) → List (List Char) → Option Bool
  | 0, _, _ => none
  | Nat.succ k, ls, rs =>
    match goAtoi (ls.headD []) with
    | none => some false
    | some li =>
      match goAtoi (rs.headD []) with
      | none => some false
      | some ri =>
        if ri > li then some true
        else if ri < li then some false
        else coreLoop k ls.tail rs.tail

/-- Go source `func isNewer(local, remote string) bool` from src/cmd/main/main.go
(`local` is a Lean keyword, hence `localStr`/`remoteStr`). -/
def isNewer (localStr remoteStr : List Char) : Bool :=
  let l := goTrimPfx localStr ['v']
  let r := goTrimPfx remoteStr ['v']
  let lParts := goSplitN '-' 2 l
  let rParts := goSplitN '-' 2 r
  let lCore := padTo3 (goSplitAll '.' (lParts.headD []))
  let rCore := padTo3 (goSplitAll '.' (rParts.headD []))
  match coreLoop 3 lCore rCore with
  | some b => b
  | none =>
    let lPre := if lParts.length > 1 then lParts.getD 1 [] else []
    let rPre := if rParts.length > 1 then rParts.getD 1 [] else []
    if rPre = [] ∧ lPre ≠ [] then true
    else if rPre ≠ [] ∧ lPre = [] then false
    else if rPre ≠ [] ∧ lPre ≠ [] then goStrLt lPre rPre
    else false

/-! ## The upgrade orchestrator (maybeUpgrade / main), over an effect
oracle.  `getLatestRelease`, `os.Executable`, `downloadFile` and
`os.Rename` perform network or filesystem I/O; the environment records
the outcome of each call, with `E` the type of Go `error` values. -/

structure UpgradeEnv (E : Type) where
  /-- Result of `getLatestRelease(owner, repo, assetName)`:
  `(remoteTag, assetURL)` on success. -/
  getLatestRelease : Except E (List Char × List Char)
  /-- Result of `os.Executable()`. -/
  osExecutable : Except E (List Char)
  /-- Result of `downloadFile(url, dst)`: `none` on success. -/
  downloadFile : List Char → List Char → Option E
  /-- Result of `os.Rename(oldpath, newpath)`: `none` on success. -/
  rename : List Char → List Char → Option E

/-- Errors returned by `maybeUpgrade`, each wrapping the underlying Go
error of the failing stage (`fmt.Errorf("...: %w", err)`, or the error
returned unwrapped for `os.Executable`). -/
inductive UpgradeErr (E : Type) where
  | queryFailed (e : E)
  | execPathErr (e : E)
  | downloadFailed (e : E)
  | replaceFailed (e : E)
deriving DecidableEq, Repr

/-- Model of Go `filepath.Dir`, restricted to slash-separated paths:
drops the last component.  `Clean` normalization is omitted; no claim
inspects the contents of a path. -/
def goFilepathDir (p : List Char) : List Char :=
  let rev := p.reverse.dropWhile (fun c => c != '/')
  if rev = [] then ['.'] else (rev.drop 1).reverse

/-- Model of Go `filepath.Join` for two components, again without the
`Clean` normalization. -/
def goFilepathJoin (a b : List Char) : List Char :=
  if a = [] then b else a ++ '/' :: b

/-- Go source `func replaceSelf(tmpPath string) error`. -/
def replaceSelf {E : Type} (env : UpgradeEnv E) (tmpPath : List Char) : Option E :=
  match env.osExecutable with
  | .error e => some e
  | .ok exePath => env.rename tmpPath exePath

/-- The tail of `maybeUpgrade` after the decision gate: resolve the
executable path, download the asset next to it, and replace self. -/
def downloadAndReplace {E : Type} (env : UpgradeEnv E) (assetURL : List Char) :
    Bool × Option (UpgradeErr E) :=
  match env.osExecutable with
  | .error e => (false, some (.execPathErr e))
  | .ok exePath =>
    let tmpPath := goFilepathJoin (goFilepathDir exePath) "updater.new".data
    match env.downloadFile assetURL tmpPath with
    | some e => (false, some (.downloadFailed e))
    | none =>
      match replaceSelf env tmpPath with
      | some e => (false, some (.replaceFailed e))
      | none => (true, none)

/-- The decision gate of `maybeUpgrade`: negation of
`err != nil || cmp <= 0 || remoteVersion.Pre != nil`. -/
def upgradeGate (remoteTag localStr : List Char) : Bool :=
  let remoteVersion := ParseVersion remoteTag
  let localVersion := ParseVersion localStr
  match remoteVersion.Compare localVersion with
  | .error _ => false
  | .ok cmp => !(decide (cmp ≤ 0) || remoteVersion.Pre.isSome)

/-- Go source `func maybeUpgrade(skip bool) (bool, error)` from src/unnamed/part_001;
`version` is the compiled-in local version string. -/
def maybeUpgrade {E : Type} (env : UpgradeEnv E) (version : List Char) (skip : Bool) :
    Bool × Option (UpgradeErr E) :=
  if skip then (false, none)
  else
    match env.getLatestRelease with
    | .error e => (false, some (.queryFailed e))
    | .ok (remoteTag, assetURL) =>
      if !upgradeGate remoteTag version then (false, none)
      else downloadAndReplace env assetURL

/-- The upgrade stanza of `main`: `os.Exit(1)` is reached exactly when
`maybeUpgrade` returned `(true, nil)` (an error is only logged). -/
def mainUpgradeExits {E : Type} (env : UpgradeEnv E) (version : List Char) (skip : Bool) :
    Bool :=
  match maybeUpgrade env version skip with
  | (upgraded, none) => upgraded
  | (_, some _) => false

/-! ## Basic facts about the library models -/

theorem goCutPfx_snd (s pfx : List Char) : (goCutPfx s pfx).2 = pfx.isPrefixOf s := by
  unfold goCutPfx
  by_cases h : pfx.isPrefixOf s = true
  · rw [if_pos h]
    exact h.symm
  · rw [if_neg h]
    simp only [Bool.not_eq_true] at h
    exact h.symm

theorem goCutPfx_found_eq {s pfx : List Char} (h : (goCutPfx s pfx).2 = true) :
    s = pfx ++ (goCutPfx s pfx).1 := by
  rw [goCutPfx_snd] at h
  obtain ⟨t, ht⟩ := List.isPrefixOf_iff_prefix.mp h
  unfold goCutPfx
  rw [if_pos h]
  simp only
  rw [← ht, List.drop_left]

/-! ## C7: the original string is preserved verbatim -/

/-- C7 — Original preserved verbatim: for every input string `text`,
parseable or not, `ParseVersion(text).Original` equals `text` exactly. -/
theorem parseVersion_original (s : List Char) : (ParseVersion s).Original = s := by
  unfold ParseVersion ParseVersionWith
  dsimp only
  split
  · rfl
  · split
    · rfl
    · rfl

/-! ## C5 and helpers: Compare errs exactly on unparsed input -/

theorem compare_ok (a b : versionStruct) (h1 : a.Parsed = true) (h2 : b.Parsed = true) :
    ∃ r, a.Compare b = .ok r := by
  unfold versionStruct.Compare
  rw [h1, h2]
  simp only [Bool.not_true, Bool.or_self, Bool.false_eq_true, if_false]
  split
  · exact ⟨_, rfl⟩
  · split
    · exact ⟨_, rfl⟩
    · split
      · exact ⟨_, rfl⟩
      · split
        · exact ⟨_, rfl⟩
        · split
          · exact ⟨_, rfl⟩
          · split
            · exact ⟨_, rfl⟩
            · split <;> exact ⟨_, rfl⟩

theorem compare_err (a b : versionStruct) (h : a.Parsed = false ∨ b.Parsed = false) :
    a.Compare b = .error "versionStruct not parsed".data := by
  unfold versionStruct.Compare
  rcases h with h | h <;> rw [h] <;> simp

/-- C5 — Compare raises exactly on unparsed input: an error is returned
iff one operand has `Parsed = false`; with both operands parsed a
verdict is always returned with no error. -/
theorem compare_error_iff (a b : versionStruct) :
    ((∃ e, a.Compare b = .error e) ↔ (a.Parsed = false ∨ b.Parsed = false)) ∧
    ((a.Parsed = true ∧ b.Parsed = true) → ∃ r, a.Compare b = .ok r) := by
  constructor
  · constructor
    · intro ⟨e, he⟩
      by_contra hc
      push_neg at hc
      obtain ⟨h1, h2⟩ := hc
      obtain ⟨r, hr⟩ := compare_ok a b (by simpa using h1) (by simpa using h2)
      rw [hr] at he
      exact Except.noConfusion he
    · intro h
      exact ⟨_, compare_err a b h⟩
  · intro ⟨h1, h2⟩
    exact compare_ok a b h1 h2

/-- Closed instance of `compare_error_iff`. -/
theorem compare_error_iff_witness :
    (∃ e, (ParseVersion "v0.0.1".data).Compare (ParseVersion "bogus".data) = .error e) ∧
    (∃ r, (ParseVersion "v0.0.2".data).Compare (ParseVersion "v0.0.1".data) = .ok r) :=
  ⟨(compare_error_iff (ParseVersion "v0.0.1".data) (ParseVersion "bogus".data)).1.mpr
      (Or.inr (by decide)),
   (compare_error_iff (ParseVersion "v0.0.2".data) (ParseVersion "v0.0.1".data)).2
      ⟨by decide, by decide⟩⟩

/-! ## C2 and helpers: the comparison algorithm -/

theorem upgradeGate_true_iff (tag ver : List Char) :
    upgradeGate tag ver = true ↔
      ((ParseVersion tag).Parsed = true ∧ (ParseVersion ver).Parsed = true ∧
       (∃ c, (ParseVersion tag).Compare (ParseVersion ver) = .ok c ∧ 0 < c) ∧
       (ParseVersion tag).Pre = none) := by
  by_cases hp1 : (ParseVersion tag).Parsed = true
  · by_cases hp2 : (ParseVersion ver).Parsed = true
    · obtain ⟨c, hc⟩ := compare_ok _ _ hp1 hp2
      unfold upgradeGate
      simp only [hc]
      constructor
      · intro hg
        cases hps : (ParseVersion tag).Pre with
        | some p =>
          rw [hps] at hg
          simp at hg
        | none =>
          rw [hps] at hg
          simp only [Option.isSome_none, Bool.or_false, Bool.not_eq_true',
            decide_eq_false_iff_not] at hg
          exact ⟨hp1, hp2, ⟨c, rfl, by omega⟩, rfl⟩
      · rintro ⟨-, -, ⟨c2, hc2, hcpos⟩, hpre⟩
        injection hc2 with hc2
        subst hc2
        simp only [hpre, Option.isSome_none, Bool.or_false, Bool.not_eq_true',
          decide_eq_false_iff_not]
        omega
    · have herr := compare_err (ParseVersion tag) (ParseVersion ver)
        (Or.inr (by simpa using hp2))
      unfold upgradeGate
      simp only [herr]
      constructor
      · intro hg
        exact absurd hg (by simp)
      · rintro ⟨-, h2, -, -⟩
        exact absurd h2 hp2
  · have herr := compare_err (ParseVersion tag) (ParseVersion ver)
      (Or.inl (by simpa using hp1))
    unfold upgradeGate
    simp only [herr]
    constructor
    · intro hg
      exact absurd hg (by simp)
    · rintro ⟨h1, -, -, -⟩
      exact absurd h1 hp1

/-- C1 — Upgrade decision gate: after a successful release query,
`maybeUpgrade` proceeds to the download/replace phase exactly when both
version strings parse, `Compare(remote, local)` is strictly positive,
and the remote Version has no prerelease marker; in every other case it
returns `(false, nil)` — no upgrade, no error. -/
theorem upgrade_decision_gate {E : Type} (env : UpgradeEnv E) (ver tag url : List Char)
    (hq : env.getLatestRelease = .ok (tag, url)) :
    (maybeUpgrade env ver false =
      if upgradeGate tag ver then downloadAndReplace env url else (false, none)) ∧
    (upgradeGate tag ver = true ↔
      ((ParseVersion tag).Parsed = true ∧ (ParseVersion ver).Parsed = true ∧
       (∃ c, (ParseVersion tag).Compare (ParseVersion ver) = .ok c ∧ 0 < c) ∧
       (ParseVersion tag).Pre = none)) := by
  constructor
  · cases hgate : upgradeGate tag ver
    · simp [maybeUpgrade, hq, hgate]
    · simp [maybeUpgrade, hq, hgate]
  · exact upgradeGate_true_iff tag ver

def okEnv : UpgradeEnv Unit where
  getLatestRelease := .ok ("v1.1.0".data, "https://x/u".data)
  osExecutable := .ok "/opt/updater".data
  downloadFile := fun _ _ => none
  rename := fun _ _ => none

/-- Closed instance of `upgrade_decision_gate`. -/
theorem upgrade_decision_gate_witness :
    (maybeUpgrade okEnv "v1.0.0".data false =
      if upgradeGate "v1.1.0".data "v1.0.0".data then
        downloadAndReplace okEnv "https://x/u".data
      else (false, none)) ∧
    (upgradeGate "v1.1.0".data "v1.0.0".data = true ↔
      ((ParseVersion "v1.1.0".data).Parsed = true ∧
       (ParseVersion "v1.0.0".data).Parsed = true ∧
       (∃ c, (ParseVersion "v1.1.0".data).Compare (ParseVersion "v1.0.0".data) = .ok c ∧
         0 < c) ∧
       (ParseVersion "v1.1.0".data).Pre = none)) :=
  upgrade_decision_gate okEnv "v1.0.0".data "v1.1.0".data "https://x/u".data rfl

/-! ## C8: only a fully successful upgrade ends the process -/

/-- C8 — Only a successful replacement ends the process: `maybeUpgrade`
returns `(true, nil)` exactly when every stage succeeded (not skipped,
release query ok, decision gate passed, executable path resolved,
download ok, `replaceSelf` ok), and `main` reaches `os.Exit` exactly in
that case. -/
theorem upgrade_only_success_exits {E : Type} (env : UpgradeEnv E) (ver : List Char)
    (skip : Bool) :
    (mainUpgradeExits env ver skip = true ↔ maybeUpgrade env ver skip = (true, none)) ∧
    (maybeUpgrade env ver skip = (true, none) ↔
      (skip = false ∧
       ∃ tag url, env.getLatestRelease = .ok (tag, url) ∧ upgradeGate tag ver = true ∧
       ∃ exePath, env.osExecutable = .ok exePath ∧
         env.downloadFile url
           (goFilepathJoin (goFilepathDir exePath) "updater.new".data) = none ∧
         replaceSelf env
           (goFilepathJoin (goFilepathDir exePath) "updater.new".data) = none)) := by
  constructor
  · unfold mainUpgradeExits
    rcases hm : maybeUpgrade env ver skip with ⟨b, o⟩
    cases o
    · simp
    · simp
  · cases skip
    · cases hq : env.getLatestRelease with
      | error e => simp [maybeUpgrade, hq]
      | ok pair =>
        obtain ⟨tag, url⟩ := pair
        cases hgate : upgradeGate tag ver
        · simp [maybeUpgrade, hq, hgate]
        · cases hx : env.osExecutable with
          | error e =>
            simp [maybeUpgrade, downloadAndReplace, hq, hgate, hx]
          | ok exePath =>
            cases hd : env.downloadFile url
                (goFilepathJoin (goFilepathDir exePath) "updater.new".data) with
            | some e =>
              simp [maybeUpgrade, downloadAndReplace, hq, hgate, hx, hd]
            | none =>
              cases hr : replaceSelf env
                  (goFilepathJoin (goFilepathDir exePath) "updater.new".data) with
              | some e =>
                simp [maybeUpgrade, downloadAndReplace, hq, hgate, hx, hd, hr]
              | none =>
                simp only [maybeUpgrade, downloadAndReplace, hq, hgate, hx, hd, hr,
                  Bool.not_true, Bool.false_eq_true, if_false]
                constructor
                · intro
                  exact ⟨trivial, tag, url, rfl, hgate, exePath, rfl, hd, hr⟩
                · intro
                  trivial
    · simp [maybeUpgrade]

/-- Closed instance of `upgrade_only_success_exits`. -/
theorem upgrade_only_success_exits_witness :
    (mainUpgradeExits okEnv "v1.0.0".data false = true ↔
      maybeUpgrade okEnv "v1.0.0".data false = (true, none)) ∧
    (maybeUpgrade okEnv "v1.0.0".data false = (true, none) ↔
      (false = false ∧
       ∃ tag url, okEnv.getLatestRelease = .ok (tag, url) ∧
         upgradeGate tag "v1.0.0".data = true ∧
       ∃ exePath, okEnv.osExecutable = .ok exePath ∧
         okEnv.downloadFile url
           (goFilepathJoin (goFilepathDir exePath) "updater.new".data) = none ∧
         replaceSelf okEnv
           (goFilepathJoin (goFilepathDir exePath) "updater.new".data) = none)) :=
  upgrade_only_success_exits okEnv "v1.0.0".data false

/-! ## C9: parsing is independent of the map iteration order -/

theorem parsePreReleaseWith_cons (pfx : List Char) (t : PreReleaseType)
    (entries : List (List Char × PreReleaseType)) (v : List Char) :
    parsePreReleaseWith ((pfx, t) :: entries) v =
      if (goCutPfx v pfx).2 then
        (match goAtoi (goCutPfx v pfx).1 with
         | none => none
         | some n => some { t := t, version := n })
      else parsePreReleaseWith entries v := rfl

theorem parsePreReleaseWith_perm (v : List Char) :
    ∀ {l1 l2 : List (List Char × PreReleaseType)}, l1.Perm l2 →
    (∀ a ∈ l1, ∀ b ∈ l1,
      (goCutPfx v a.1).2 = true → (goCutPfx v b.1).2 = true → a = b) →
    parsePreReleaseWith l1 v = parsePreReleaseWith l2 v := by
  intro l1 l2 hp
  induction hp with
  | nil => intro _; rfl
  | cons x hp ih =>
    intro hu
    obtain ⟨pfx, t⟩ := x
    rw [parsePreReleaseWith_cons, parsePreReleaseWith_cons]
    by_cases hf : (goCutPfx v pfx).2 = true
    · rw [if_pos hf, if_pos hf]
    · rw [if_neg hf, if_neg hf]
      exact ih fun a ha b hb =>
        hu a (List.mem_cons_of_mem _ ha) b (List.mem_cons_of_mem _ hb)
  | swap a b t =>
    intro hu
    obtain ⟨p1, t1⟩ := a
    obtain ⟨p2, t2⟩ := b
    rw [parsePreReleaseWith_cons, parsePreReleaseWith_cons,
      parsePreReleaseWith_cons, parsePreReleaseWith_cons]
    by_cases h1 : (goCutPfx v p1).2 = true
    · by_cases h2 : (goCutPfx v p2).2 = true
      · have heq : ((p1, t1) : List Char × PreReleaseType) = (p2, t2) :=
          hu (p1, t1) (by simp) (p2, t2) (by simp) h1 h2
        injection heq with e1 e2
        subst e1
        subst e2
        rfl
      · rw [if_neg h2, if_pos h1, if_pos h1]
    · by_cases h2 : (goCutPfx v p2).2 = true
      · rw [if_pos h2, if_neg h1, if_pos h2]
      · rw [if_neg h2, if_neg h1, if_neg h1, if_neg h2]
  | trans h1 h2 ih1 ih2 =>
    intro hu
    refine (ih1 hu).trans (ih2 ?_)
    intro a ha b hb
    exact hu a (h1.mem_iff.mpr ha) b (h1.mem_iff.mpr hb)

theorem prereleaseTypeMap_unique (v : List Char)
    {l : List (List Char × PreReleaseType)} (hp : l.Perm prereleaseTypeMap) :
    ∀ a ∈ l, ∀ b ∈ l,
      (goCutPfx v a.1).2 = true → (goCutPfx v b.1).2 = true → a = b := by
  intro a ha b hb hfa hfb
  have ha2 : a ∈ prereleaseTypeMap := hp.mem_iff.mp ha
  have hb2 : b ∈ prereleaseTypeMap := hp.mem_iff.mp hb
  rw [goCutPfx_snd] at hfa hfb
  have hpa : a.1 <+: v := List.isPrefixOf_iff_prefix.mp hfa
  have hpb : b.1 <+: v := List.isPrefixOf_iff_prefix.mp hfb
  have hor := List.prefix_or_prefix_of_prefix hpa hpb
  simp only [prereleaseTypeMap, List.mem_cons, List.not_mem_nil, or_false] at ha2 hb2
  rcases ha2 with ha2 | ha2 | ha2 <;> rcases hb2 with hb2 | hb2 | hb2 <;>
    subst ha2 <;> subst hb2 <;>
    first
      | rfl
      | (exfalso; revert hor; decide)

/-- C9 — ParseVersion is deterministic: its result does not depend on
the (unspecified) iteration order of the Go map `prereleaseTypeMap`,
because no channel name is a prefix of another, so at most one entry
can match a given tail. -/
theorem parse_deterministic (entries : List (List Char × PreReleaseType))
    (hp : entries.Perm prereleaseTypeMap) (v : List Char) :
    ParseVersionWith entries v = ParseVersion v := by
  have key : ∀ w, parsePreReleaseWith entries w = parsePreReleaseWith prereleaseTypeMap w :=
    fun w => parsePreReleaseWith_perm w hp (prereleaseTypeMap_unique w hp)
  unfold ParseVersion ParseVersionWith
  simp only [key]

/-- Closed instance of `parse_deterministic`: a reversed iteration
order yields the same parse. -/
theorem parse_deterministic_witness :
    ParseVersionWith
        [("rc".data, .PrereleaseRC), ("beta".data, .PrereleaseBeta),
         ("alpha".data, .PrereleaseAlpha)]
        "v1.2.3-rc4".data = ParseVersion "v1.2.3-rc4".data :=
  parse_deterministic
    [("rc".data, .PrereleaseRC), ("beta".data, .PrereleaseBeta),
     ("alpha".data, .PrereleaseAlpha)]
    (by decide) "v1.2.3-rc4".data

/-! ## Structural lemmas about the split models -/

theorem splitFirst_none {sep : Char} {s : List Char} :
    splitFirst sep s = none ↔ sep ∉ s := by
  induction s with
  | nil => simp [splitFirst]
  | cons c cs ih =>
    unfold splitFirst
    by_cases h : c = sep
    · subst h
      simp
    · rw [if_neg h]
      cases hs : splitFirst sep cs with
      | none =>
        have hns : sep ∉ cs := ih.mp hs
        constructor
        · intro _ hmem
          rcases List.mem_cons.mp hmem with he | hm
          · exact h he.symm
          · exact hns hm
        · intro _
          rfl
      | some p =>
        obtain ⟨a, b⟩ := p
        constructor
        · intro hc
          exact absurd hc (by simp)
        · intro hmem
          exfalso
          apply hmem
          have hmem2 : sep ∈ cs := by
            by_contra hn
            rw [ih.mpr hn] at hs
            exact Option.noConfusion hs
          exact List.mem_cons_of_mem _ hmem2

theorem splitFirst_some {sep : Char} :
    ∀ {s a b : List Char}, splitFirst sep s = some (a, b) →
      s = a ++ sep :: b ∧ sep ∉ a := by
  intro s
  induction s with
  | nil =>
    intro a b h
    exact Option.noConfusion h
  | cons c cs ih =>
    intro a b h
    unfold splitFirst at h
    by_cases hc : c = sep
    · subst hc
      rw [if_pos rfl] at h
      injection h with h
      injection h with h1 h2
      subst h1
      subst h2
      exact ⟨rfl, by simp⟩
    · rw [if_neg hc] at h
      cases hs : splitFirst sep cs with
      | none =>
        rw [hs] at h
        exact Option.noConfusion h
      | some p =>
        obtain ⟨a2, b2⟩ := p
        rw [hs] at h
        injection h with h
        injection h with h1 h2
        subst h1
        subst h2
        obtain ⟨he, hna⟩ := ih hs
        refine ⟨by rw [he]; rfl, ?_⟩
        intro hmem
        rcases List.mem_cons.mp hmem with he2 | hm
        · exact hc he2.symm
        · exact hna hm

theorem goSplitN_eq2 (sep : Char) (n : Nat) (s : List Char) :
    goSplitN sep (n + 2) s =
      match splitFirst sep s with
      | none => [s]
      | some (a, b) => a :: goSplitN sep (n + 1) b := rfl

theorem goSplitN_no_sep {sep : Char} {s : List Char} (h : sep ∉ s) (n : Nat) :
    goSplitN sep (n + 1) s = [s] := by
  cases n with
  | zero => rfl
  | succ m =>
    rw [show m + 1 + 1 = m + 2 from rfl, goSplitN_eq2, splitFirst_none.mpr h]

theorem goSplitN_cons {sep : Char} {s a b : List Char}
    (h : splitFirst sep s = some (a, b)) (n : Nat) :
    goSplitN sep (n + 2) s = a :: goSplitN sep (n + 1) b := by
  rw [goSplitN_eq2, h]

theorem count_splitFirst {sep : Char} {s a b : List Char}
    (h : splitFirst sep s = some (a, b)) :
    s.count sep = b.count sep + 1 := by
  obtain ⟨he, hna⟩ := splitFirst_some h
  rw [he, List.count_append, List.count_cons_self, List.count_eq_zero.mpr hna]
  omega

theorem goSplitN_stable (sep : Char) :
    ∀ (k : Nat) (s : List Char), s.count sep ≤ k →
      ∀ m n, s.count sep < m → s.count sep < n →
        goSplitN sep m s = goSplitN sep n s := by
  intro k
  induction k with
  | zero =>
    intro s hc m n hm hn
    have hns : sep ∉ s := List.count_eq_zero.mp (by omega)
    cases m with
    | zero => omega
    | succ m2 =>
      cases n with
      | zero => omega
      | succ n2 => rw [goSplitN_no_sep hns m2, goSplitN_no_sep hns n2]
  | succ k ih =>
    intro s hc m n hm hn
    by_cases h0 : sep ∈ s
    · cases hs : splitFirst sep s with
      | none => exact absurd (splitFirst_none.mp hs) (by simp [h0])
      | some p =>
        obtain ⟨a, b⟩ := p
        have hcount := count_splitFirst hs
        cases m with
        | zero => omega
        | succ m2 =>
          cases m2 with
          | zero => omega
          | succ m3 =>
            cases n with
            | zero => omega
            | succ n2 =>
              cases n2 with
              | zero => omega
              | succ n3 =>
                rw [goSplitN_cons hs m3, goSplitN_cons hs n3]
                congr 1
                exact ih b (by omega) (m3 + 1) (n3 + 1) (by omega) (by omega)
    · cases m with
      | zero => omega
      | succ m2 =>
        cases n with
        | zero => omega
        | succ n2 => rw [goSplitN_no_sep h0 m2, goSplitN_no_sep h0 n2]

theorem goSplitAll_eq {sep : Char} {s : List Char} {n : Nat} (h : s.count sep < n) :
    goSplitN sep n s = goSplitAll sep s := by
  unfold goSplitAll
  exact goSplitN_stable sep (s.count sep) s le_rfl n (s.length + 1) h
    (by have := List.count_le_length sep s; omega)

theorem goSplitN_length_le {sep : Char} :
    ∀ {n : Nat} (s : List Char), 1 ≤ n → (goSplitN sep n s).length ≤ n := by
  intro n
  induction n with
  | zero => omega
  | succ m ih =>
    intro s _
    cases m with
    | zero => simp [goSplitN]
    | succ m2 =>
      rw [show m2 + 1 + 1 = m2 + 2 from rfl, goSplitN_eq2]
      cases hs : splitFirst sep s with
      | none => simp
      | some p =>
        obtain ⟨a, b⟩ := p
        have := ih b (by omega)
        simp only [List.length_cons]
        omega

theorem mem_of_mem_goSplitN {sep c : Char} :
    ∀ {n : Nat} {s f : List Char}, f ∈ goSplitN sep n s → c ∈ f → c ∈ s := by
  intro n
  induction n with
  | zero =>
    intro s f hf
    simp [goSplitN] at hf
  | succ m ih =>
    intro s f hf hc
    cases m with
    | zero =>
      simp only [goSplitN, List.mem_singleton] at hf
      subst hf
      exact hc
    | succ m2 =>
      rw [show m2 + 1 + 1 = m2 + 2 from rfl] at hf
      cases hs : splitFirst sep s with
      | none =>
        rw [goSplitN_no_sep (splitFirst_none.mp hs) (m2 + 1)] at hf
        rw [List.mem_singleton.mp hf] at hc
        exact hc
      | some p =>
        obtain ⟨a, b⟩ := p
        obtain ⟨he, -⟩ := splitFirst_some hs
        rw [goSplitN_cons hs m2] at hf
        rcases List.mem_cons.mp hf with hfa | hfb
        · subst hfa
          rw [he]
          exact List.mem_append_left _ hc
        · rw [he]
          exact List.mem_append_right _ (List.mem_cons_of_mem _ (ih hfb hc))

theorem goSplitN3_last_sep {sep : Char} {s : List Char} (h : 3 ≤ s.count sep) :
    ∃ a c d, goSplitN sep 3 s = [a, c, d] ∧ sep ∈ d := by
  have h1 : sep ∈ s := List.count_pos_iff.mp (by omega)
  cases hs : splitFirst sep s with
  | none => exact absurd (splitFirst_none.mp hs) (by simp [h1])
  | some p =>
    obtain ⟨a, b⟩ := p
    have hc1 := count_splitFirst hs
    have h2 : sep ∈ b := List.count_pos_iff.mp (by omega)
    cases hs2 : splitFirst sep b with
    | none => exact absurd (splitFirst_none.mp hs2) (by simp [h2])
    | some q =>
      obtain ⟨c, d⟩ := q
      have hc2 := count_splitFirst hs2
      refine ⟨a, c, d, ?_, List.count_pos_iff.mp (by omega)⟩
      rw [goSplitN_cons hs 1, goSplitN_cons hs2 0]
      rfl

/-! ## Facts about the Atoi model and the Numbers fill loop -/

theorem goAtoi_dot {f : List Char} (h : '.' ∈ f) : goAtoi f = none := by
  unfold goAtoi
  cases f with
  | nil => rfl
  | cons c rest =>
    dsimp only
    by_cases hsign : c = '-' ∨ c = '+'
    · rw [if_pos hsign]
      have hdot : '.' ∈ rest := by
        rcases List.mem_cons.mp h with he | hm
        · exfalso
          rcases hsign with h2 | h2
          · exact absurd (he.trans h2) (by decide)
          · exact absurd (he.trans h2) (by decide)
        · exact hm
      have hne : rest ≠ [] := by
        intro hnil
        rw [hnil] at hdot
        exact List.not_mem_nil _ hdot
      rw [if_neg hne]
      have hall : rest.all (fun d => d.isDigit) = false :=
        List.all_eq_false.mpr ⟨'.', hdot, by decide⟩
      rw [hall]
      rfl
    · rw [if_neg hsign]
      have hne : c :: rest ≠ [] := by simp
      rw [if_neg hne]
      have hall : (c :: rest).all (fun d => d.isDigit) = false :=
        List.all_eq_false.mpr ⟨'.', h, by decide⟩
      rw [hall]
      rfl

theorem goAtoi_nonneg {f : List Char} {n : Int} (hm : '-' ∉ f)
    (ha : goAtoi f = some n) : 0 ≤ n := by
  unfold goAtoi at ha
  cases f with
  | nil => exact Option.noConfusion ha
  | cons c rest =>
    dsimp only at ha
    have hcm : c ≠ '-' := by
      intro he
      exact hm (he ▸ List.mem_cons_self c rest)
    rw [if_neg hcm] at ha
    by_cases hsign : c = '-' ∨ c = '+'
    · rw [if_pos hsign] at ha
      split_ifs at ha
      all_goals
        first
          | exact Option.noConfusion ha
          | (injection ha with ha; rw [← ha]; exact Int.natCast_nonneg _)
    · rw [if_neg hsign] at ha
      split_ifs at ha
      all_goals
        first
          | exact Option.noConfusion ha
          | (injection ha with ha; rw [← ha]; exact Int.natCast_nonneg _)

theorem fillNumbers_snd (fs : List (List Char)) : ∀ (ns : Int × Int × Int) (i : Nat),
    (fillNumbers ns i fs).2 = true ↔ ∀ f ∈ fs, (goAtoi f).isSome = true := by
  induction fs with
  | nil => simp [fillNumbers]
  | cons f fs ih =>
    intro ns i
    unfold fillNumbers
    cases ha : goAtoi f with
    | none => simp [ha]
    | some v => simp [ha, ih]

/-! ## Shape lemmas for ParseVersion -/

theorem goCutPfx_cons_v (body : List Char) :
    goCutPfx ('v' :: body) ['v'] = (body, true) := by
  unfold goCutPfx
  have h : (['v'] : List Char).isPrefixOf ('v' :: body) = true := by
    rw [ List.isPrefixOf_iff_prefix]
    exact ⟨body, rfl⟩
  rw [if_pos h]
  rfl

theorem parsed_starts_v {s : List Char} (h : (ParseVersion s).Parsed = true) :
    ∃ body, s = 'v' :: body := by
  by_cases hc : (goCutPfx s ['v']).2 = true
  · have he := goCutPfx_found_eq hc
    exact ⟨(goCutPfx s ['v']).1, by simpa using he⟩
  · exfalso
    rw [Bool.not_eq_true] at hc
    simp only [ParseVersion, ParseVersionWith, hc, Bool.not_false, if_true] at h
    exact Bool.noConfusion h

theorem body_split_cases (body : List Char) :
    (goSplitN '-' 2 body = [body] ∧ '-' ∉ body) ∨
      ∃ core tail, body = core ++ '-' :: tail ∧ '-' ∉ core ∧
        goSplitN '-' 2 body = [core, tail] := by
  cases hs : splitFirst '-' body with
  | none =>
    have hn := splitFirst_none.mp hs
    exact Or.inl ⟨goSplitN_no_sep hn 1, hn⟩
  | some p =>
    obtain ⟨a, b⟩ := p
    obtain ⟨he, hna⟩ := splitFirst_some hs
    exact Or.inr ⟨a, b, he, hna, goSplitN_cons hs 0⟩

theorem ParseVersion_nodash {body : List Char} (h : '-' ∉ body) :
    ParseVersion ('v' :: body) =
      { Original := 'v' :: body,
        Parsed := (fillNumbers (0, 0, 0) 0 (goSplitN '.' 3 body)).2,
        Numbers := (fillNumbers (0, 0, 0) 0 (goSplitN '.' 3 body)).1,
        Pre := none } := by
  unfold ParseVersion ParseVersionWith
  rw [goCutPfx_cons_v]
  simp only [goSplitN_no_sep h 1, List.length_singleton, List.headD_cons]
  norm_num

theorem splitFirst_append {sep : Char} {a : List Char} (b : List Char) (h : sep ∉ a) :
    splitFirst sep (a ++ sep :: b) = some (a, b) := by
  induction a with
  | nil =>
    show splitFirst sep (sep :: b) = some ([], b)
    unfold splitFirst
    rw [if_pos rfl]
  | cons c cs ih =>
    have hc : c ≠ sep := by
      intro he
      exact h (he ▸ List.mem_cons_self c cs)
    have hcs : sep ∉ cs := fun hm => h (List.mem_cons_of_mem _ hm)
    show splitFirst sep (c :: (cs ++ sep :: b)) = some (c :: cs, b)
    unfold splitFirst
    rw [if_neg hc, ih hcs]

theorem ParseVersion_dash {core tail : List Char} (h : '-' ∉ core) :
    ParseVersion ('v' :: (core ++ '-' :: tail)) =
      (match parsePreRelease tail with
       | none =>
         { Original := 'v' :: (core ++ '-' :: tail), Parsed := false,
           Numbers := (0, 0, 0), Pre := none }
       | some p =>
         { Original := 'v' :: (core ++ '-' :: tail),
           Parsed := (fillNumbers (0, 0, 0) 0 (goSplitN '.' 3 core)).2,
           Numbers := (fillNumbers (0, 0, 0) 0 (goSplitN '.' 3 core)).1,
           Pre := some p }) := by
  have hsplit : goSplitN '-' 2 (core ++ '-' :: tail) = [core, tail] :=
    goSplitN_cons (splitFirst_append tail h) 0
  unfold ParseVersion ParseVersionWith
  rw [goCutPfx_cons_v]
  cases hp : parsePreRelease tail with
  | none =>
    have hp2 : parsePreReleaseWith prereleaseTypeMap tail = none := hp
    simp [hsplit, hp2]
  | some p =>
    have hp2 : parsePreReleaseWith prereleaseTypeMap tail = some p := hp
    simp [hsplit, hp2]

/-! ## C3: prerelease tail validity -/

/-- The literal channel names, keys of `prereleaseTypeMap`. -/
def channelName : PreReleaseType → List Char
  | .PrereleaseAlpha => "alpha".data
  | .PrereleaseBeta => "beta".data
  | .PrereleaseRC => "rc".data

theorem parsePreRelease_some {tail : List Char} {p : Prerelease}
    (h : parsePreRelease tail = some p) :
    ∃ rest, tail = channelName p.t ++ rest ∧ goAtoi rest = some p.version := by
  have h2 : parsePreReleaseWith prereleaseTypeMap tail = some p := h
  unfold prereleaseTypeMap at h2
  rw [parsePreReleaseWith_cons] at h2
  by_cases h1 : (goCutPfx tail "alpha".data).2 = true
  · rw [if_pos h1] at h2
    cases ha : goAtoi (goCutPfx tail "alpha".data).1 with
    | none =>
      rw [ha] at h2
      exact Option.noConfusion h2
    | some n =>
      rw [ha] at h2
      injection h2 with h2
      refine ⟨(goCutPfx tail "alpha".data).1, ?_, ?_⟩
      · rw [← h2]
        exact goCutPfx_found_eq h1
      · rw [← h2]
        exact ha
  · rw [if_neg h1, parsePreReleaseWith_cons] at h2
    by_cases hb : (goCutPfx tail "beta".data).2 = true
    · rw [if_pos hb] at h2
      cases ha : goAtoi (goCutPfx tail "beta".data).1 with
      | none =>
        rw [ha] at h2
        exact Option.noConfusion h2
      | some n =>
        rw [ha] at h2
        injection h2 with h2
        refine ⟨(goCutPfx tail "beta".data).1, ?_, ?_⟩
        · rw [← h2]
          exact goCutPfx_found_eq hb
        · rw [← h2]
          exact ha
    · rw [if_neg hb, parsePreReleaseWith_cons] at h2
      by_cases hr : (goCutPfx tail "rc".data).2 = true
      · rw [if_pos hr] at h2
        cases ha : goAtoi (goCutPfx tail "rc".data).1 with
        | none =>
          rw [ha] at h2
          exact Option.noConfusion h2
        | some n =>
          rw [ha] at h2
          injection h2 with h2
          refine ⟨(goCutPfx tail "rc".data).1, ?_, ?_⟩
          · rw [← h2]
            exact goCutPfx_found_eq hr
          · rw [← h2]
            exact ha
      · rw [if_neg hr] at h2
        exact Option.noConfusion h2

/-- C3 counterexample — the tail `rc-1` is accepted: Go `strconv.Atoi`
takes an optional sign, so `v0.0.1-rc-1` parses with a negative
ordinal, contradicting the claim that the remainder must be a
non-negative integer and that every parsed prerelease ordinal is
non-negative. -/
theorem prerelease_negative_ordinal_counterexample :
    (ParseVersion "v0.0.1-rc-1".data).Parsed = true ∧
    (ParseVersion "v0.0.1-rc-1".data).Pre =
      some { t := .PrereleaseRC, version := -1 } ∧
    (ParseVersion "v0.0.1-rc1".data).Parsed = true := by
  refine ⟨by decide, by decide, by decide⟩

/-- C3 amended — Prerelease tail validity under Atoi sign semantics:
whenever an input of the form `v<core>-<tail>` parses, the tail starts
with one of the literal channel names and the remainder parses entirely
under Go `strconv.Atoi` (an optional sign followed by digits); the
stored ordinal is that integer, which may be negative.  A tail matching
no channel, or whose remainder Atoi rejects, yields `Parsed = false`. -/
theorem prerelease_tail_validity {core tail : List Char} (hc : '-' ∉ core)
    (hp : (ParseVersion ('v' :: (core ++ '-' :: tail))).Parsed = true) :
    ∃ ch rest n, tail = channelName ch ++ rest ∧ goAtoi rest = some n ∧
      (ParseVersion ('v' :: (core ++ '-' :: tail))).Pre =
        some { t := ch, version := n } := by
  cases hpre : parsePreRelease tail with
  | none =>
    exfalso
    rw [ParseVersion_dash hc, hpre] at hp
    exact Bool.noConfusion hp
  | some p =>
    obtain ⟨rest, hre, hat⟩ := parsePreRelease_some hpre
    exact ⟨p.t, rest, p.version, hre, hat, by rw [ParseVersion_dash hc, hpre]⟩

/-- Closed instance of `prerelease_tail_validity`. -/
theorem prerelease_tail_validity_witness :
    ∃ ch rest n, "beta7".data = channelName ch ++ rest ∧ goAtoi rest = some n ∧
      (ParseVersion ('v' :: ("1.2".data ++ '-' :: "beta7".data))).Pre =
        some { t := ch, version := n } :=
  prerelease_tail_validity (by decide) (by decide)

/-! ## C4: core field shape -/

/-- C4 counterexample — a core field may carry an extra sign
character: Go `strconv.Atoi` tolerates a leading `+`, so `v+1.2` is
accepted with `Numbers = (1, 2, 0)` although its first core field `+1`
is not a bare non-negative base-10 numeral (it contains the non-digit
`+`), contradicting the claim that every field of an accepted version
is a non-negative base-10 integer with no extra characters. -/
theorem core_field_sign_counterexample :
    (ParseVersion "v+1.2".data).Parsed = true ∧
    (ParseVersion "v+1.2".data).Numbers = (1, 2, 0) ∧
    goSplitN '.' 3 ((goSplitN '-' 2 "+1.2".data).headD []) =
      ["+1".data, "2".data] ∧
    ("+1".data.all (fun d => d.isDigit)) = false := by
  exact ⟨by decide, by decide, by decide, by decide⟩

/-- C4 amended — Core field shape under Atoi sign semantics: the core
is split on `.` into at most 3 fields; in an accepted version every
core field parses in full under Go `strconv.Atoi` — an optionally
signed base-10 numeral, where a leading `+` is tolerated and a `-`
can never occur (the core precedes the first dash) — with a
non-negative value; a core with more than 3 fields is rejected
(`v0.0.0.1`); missing fields zero-fill (`v9999` → `(9999, 0, 0)`). -/
theorem core_field_shape :
    (∀ body, (ParseVersion ('v' :: body)).Parsed = true →
      ((goSplitN '.' 3 ((goSplitN '-' 2 body).headD [])).length ≤ 3 ∧
       ∀ f ∈ goSplitN '.' 3 ((goSplitN '-' 2 body).headD []),
         ∃ n, goAtoi f = some n ∧ 0 ≤ n)) ∧
    (∀ body, 3 < (goSplitAll '.' ((goSplitN '-' 2 body).headD [])).length →
      (ParseVersion ('v' :: body)).Parsed = false) ∧
    (ParseVersion "v0.0.0.1".data).Parsed = false ∧
    (ParseVersion "v9999".data).Numbers = (9999, 0, 0) ∧
    (ParseVersion "v9999".data).Parsed = true := by
  have keyFill : ∀ body, (ParseVersion ('v' :: body)).Parsed =
      (fillNumbers (0, 0, 0) 0
        (goSplitN '.' 3 ((goSplitN '-' 2 body).headD []))).2 ∨
      ((ParseVersion ('v' :: body)).Parsed = false) := by
    intro body
    rcases body_split_cases body with ⟨hparts, hnd⟩ | ⟨c0, t0, he, hnc, hparts⟩
    · rw [ParseVersion_nodash hnd, hparts]
      exact Or.inl rfl
    · subst he
      rw [ParseVersion_dash hnc, hparts]
      cases hpre : parsePreRelease t0 with
      | none => exact Or.inr rfl
      | some p => exact Or.inl rfl
  have coreNoDash : ∀ body, '-' ∉ (goSplitN '-' 2 body).headD [] := by
    intro body
    rcases body_split_cases body with ⟨hparts, hnd⟩ | ⟨c0, t0, he, hnc, hparts⟩
    · rw [hparts]
      exact hnd
    · rw [hparts]
      exact hnc
  refine ⟨?_, ?_, by decide, by decide, by decide⟩
  · intro body hp
    refine ⟨goSplitN_length_le _ (by omega), ?_⟩
    intro f hf
    have hfill : (fillNumbers (0, 0, 0) 0
        (goSplitN '.' 3 ((goSplitN '-' 2 body).headD []))).2 = true := by
      rcases keyFill body with hk | hk
      · rw [← hk]
        exact hp
      · rw [hk] at hp
        exact Bool.noConfusion hp
    have hsome := (fillNumbers_snd _ _ _).mp hfill f hf
    obtain ⟨n, hn⟩ := Option.isSome_iff_exists.mp hsome
    refine ⟨n, hn, goAtoi_nonneg ?_ hn⟩
    intro hdm
    exact coreNoDash body (mem_of_mem_goSplitN hf hdm)
  · intro body hlen
    set core := (goSplitN '-' 2 body).headD [] with hcore
    have hcnt : 3 ≤ core.count '.' := by
      by_contra hlt
      have hlt2 : core.count '.' < 3 := by omega
      rw [← @goSplitAll_eq '.' core 3 hlt2] at hlen
      have := @goSplitN_length_le '.' 3 core (by omega)
      omega
    obtain ⟨a, c, d, hsp, hd⟩ := goSplitN3_last_sep hcnt
    have hfail : (fillNumbers (0, 0, 0) 0 (goSplitN '.' 3 core)).2 = false := by
      by_contra hne
      have ht : (fillNumbers (0, 0, 0) 0 (goSplitN '.' 3 core)).2 = true := by
        cases hb : (fillNumbers (0, 0, 0) 0 (goSplitN '.' 3 core)).2
        · exact absurd hb hne
        · rfl
      have := (fillNumbers_snd _ _ _).mp ht d (by rw [hsp]; simp)
      rw [goAtoi_dot hd] at this
      exact Bool.noConfusion this
    rcases keyFill body with hk | hk
    · rw [hk, ← hcore]
      exact hfail
    · exact hk

/-- Closed instance of `core_field_shape`. -/
theorem core_field_shape_witness :
    (ParseVersion ('v' :: "0.0.0.0.1".data)).Parsed = false ∧
    (goSplitN '.' 3 ((goSplitN '-' 2 "9999".data).headD [])).length ≤ 3 :=
  ⟨core_field_shape.2.1 "0.0.0.0.1".data (by decide),
   (core_field_shape.1 "9999".data (by decide)).1⟩

/-! ## C10: machinery relating the legacy comparator to the new gate -/

theorem goTrimPfx_cons_v (body : List Char) :
    goTrimPfx ('v' :: body) ['v'] = body := by
  unfold goTrimPfx
  have h : (['v'] : List Char).isPrefixOf ('v' :: body) = true := by
    rw [ List.isPrefixOf_iff_prefix]
    exact ⟨body, rfl⟩
  rw [if_pos h]
  rfl

theorem goSplitN_ne_nil {sep : Char} {n : Nat} (s : List Char) (h : 1 ≤ n) :
    goSplitN sep n s ≠ [] := by
  cases n with
  | zero => omega
  | succ m =>
    cases m with
    | zero => simp [goSplitN]
    | succ m2 =>
      rw [show m2 + 1 + 1 = m2 + 2 from rfl, goSplitN_eq2]
      cases hs : splitFirst sep s with
      | none => simp
      | some p =>
        obtain ⟨a, b⟩ := p
        simp

theorem goSplitAll_eq_splitN3 {s : List Char}
    (h : ∀ f ∈ goSplitN '.' 3 s, (goAtoi f).isSome = true) :
    goSplitAll '.' s = goSplitN '.' 3 s := by
  by_cases hcnt : s.count '.' < 3
  · exact (goSplitAll_eq hcnt).symm
  · exfalso
    obtain ⟨a, c, d, hsp, hd⟩ :=
      @goSplitN3_last_sep '.' s (by omega)
    have hds := h d (by rw [hsp]; simp)
    rw [goAtoi_dot hd] at hds
    exact Bool.noConfusion hds

theorem parsePreRelease_ne_nil {tail : List Char} {p : Prerelease}
    (h : parsePreRelease tail = some p) : tail ≠ [] := by
  intro he
  subst he
  have h0 : parsePreRelease ([] : List Char) = none := by decide
  rw [h0] at h
  exact Option.noConfusion h

theorem fill_shape {fields : List (List Char)} (h1 : fields ≠ [])
    (h3 : fields.length ≤ 3)
    (hs : (fillNumbers (0, 0, 0) 0 fields).2 = true) :
    ∃ a b c x y z, padTo3 fields = [a, b, c] ∧ goAtoi a = some x ∧
      goAtoi b = some y ∧ goAtoi c = some z ∧
      (fillNumbers (0, 0, 0) 0 fields).1 = (x, y, z) := by
  have hall := (fillNumbers_snd _ _ _).mp hs
  match fields with
  | [] => exact absurd rfl h1
  | [f1] =>
    obtain ⟨x, hx⟩ := Option.isSome_iff_exists.mp (hall f1 (by simp))
    refine ⟨f1, ['0'], ['0'], x, 0, 0, rfl, hx, by decide, by decide, ?_⟩
    simp [fillNumbers, hx, setNum]
  | [f1, f2] =>
    obtain ⟨x, hx⟩ := Option.isSome_iff_exists.mp (hall f1 (by simp))
    obtain ⟨y, hy⟩ := Option.isSome_iff_exists.mp (hall f2 (by simp))
    refine ⟨f1, f2, ['0'], x, y, 0, rfl, hx, hy, by decide, ?_⟩
    simp [fillNumbers, hx, hy, setNum]
  | [f1, f2, f3] =>
    obtain ⟨x, hx⟩ := Option.isSome_iff_exists.mp (hall f1 (by simp))
    obtain ⟨y, hy⟩ := Option.isSome_iff_exists.mp (hall f2 (by simp))
    obtain ⟨z, hz⟩ := Option.isSome_iff_exists.mp (hall f3 (by simp))
    refine ⟨f1, f2, f3, x, y, z, rfl, hx, hy, hz, ?_⟩
    simp [fillNumbers, hx, hy, hz, setNum]
  | f1 :: f2 :: f3 :: f4 :: rest =>
    exfalso
    simp only [List.length_cons] at h3
    omega

theorem coreLoop_succ (k : Nat) (ls rs : List (List Char)) :
    coreLoop (k + 1) ls rs =
      match goAtoi (ls.headD []) with
      | none => some false
      | some li =>
        match goAtoi (rs.headD []) with
        | none => some false
        | some ri =>
          if ri > li then some true
          else if ri < li then some false
          else coreLoop k ls.tail rs.tail := rfl

theorem coreLoop_vals {la lb lc ra rb rcs : List Char} {x0 x1 x2 y0 y1 y2 : Int}
    (h0 : goAtoi la = some x0) (h1 : goAtoi lb = some x1) (h2 : goAtoi lc = some x2)
    (g0 : goAtoi ra = some y0) (g1 : goAtoi rb = some y1) (g2 : goAtoi rcs = some y2) :
    coreLoop 3 [la, lb, lc] [ra, rb, rcs] =
      (if y0 > x0 then some true else if y0 < x0 then some false
       else if y1 > x1 then some true else if y1 < x1 then some false
       else if y2 > x2 then some true else if y2 < x2 then some false
       else none) := by
  rw [show (3 : Nat) = 2 + 1 from rfl, coreLoop_succ]
  simp only [List.headD_cons, List.tail_cons, h0, g0]
  rw [show (2 : Nat) = 1 + 1 from rfl, coreLoop_succ]
  simp only [List.headD_cons, List.tail_cons, h1, g1]
  rw [show (1 : Nat) = 0 + 1 from rfl, coreLoop_succ]
  simp only [List.headD_cons, List.tail_cons, h2, g2]
  rfl

theorem ifchain_agree_nopre (x0 x1 x2 y0 y1 y2 : Int) :
    (match (if y0 > x0 then some true else if y0 < x0 then some false
            else if y1 > x1 then some true else if y1 < x1 then some false
            else if y2 > x2 then some true else if y2 < x2 then some false
            else none : Option Bool) with
     | some b => b
     | none => false) =
    (match (if y0 > x0 then Except.ok 1 else if y0 < x0 then Except.ok (-1)
            else if y1 > x1 then Except.ok 1 else if y1 < x1 then Except.ok (-1)
            else if y2 > x2 then Except.ok 1 else if y2 < x2 then Except.ok (-1)
            else Except.ok 0 : Except (List Char) Int) with
     | .error _ => false
     | .ok cmp => !(decide (cmp ≤ 0) || false)) := by
  split_ifs <;> decide

theorem ifchain_agree_pre (x0 x1 x2 y0 y1 y2 : Int) :
    (match (if y0 > x0 then some true else if y0 < x0 then some false
            else if y1 > x1 then some true else if y1 < x1 then some false
            else if y2 > x2 then some true else if y2 < x2 then some false
            else none : Option Bool) with
     | some b => b
     | none => true) =
    (match (if y0 > x0 then Except.ok 1 else if y0 < x0 then Except.ok (-1)
            else if y1 > x1 then Except.ok 1 else if y1 < x1 then Except.ok (-1)
            else if y2 > x2 then Except.ok 1 else if y2 < x2 then Except.ok (-1)
            else Except.ok 1 : Except (List Char) Int) with
     | .error _ => false
     | .ok cmp => !(decide (cmp ≤ 0) || false)) := by
  split_ifs <;> decide

/-- C10 counterexample — the two upgrade verdicts disagree: for local
`v1.0.0` and remote `v1.1.0-rc1` the legacy string-based `isNewer`
says upgrade (its core loop fires before any prerelease check), while
the `ParseVersion`/`Compare` gate refuses any remote prerelease. -/
theorem legacy_gate_disagreement :
    isNewer "v1.0.0".data "v1.1.0-rc1".data = true ∧
    upgradeGate "v1.1.0-rc1".data "v1.0.0".data = false := by
  exact ⟨by decide, by decide⟩

/-- C10 amended — the legacy `isNewer` of src/cmd/main/main.go and the
`ParseVersion`/`Compare` decision gate of the current orchestrator
agree on every pair of version strings in which both sides parse and
the remote version carries no prerelease marker (the counterexample
forces exactly the remote-prerelease exclusion, and unparseable inputs
the two parsers treat differently). -/
theorem legacy_gate_agreement {lstr rstr : List Char}
    (hl : (ParseVersion lstr).Parsed = true)
    (hr : (ParseVersion rstr).Parsed = true)
    (hpre : (ParseVersion rstr).Pre = none) :
    isNewer lstr rstr = upgradeGate rstr lstr := by
  obtain ⟨lbody, rfl⟩ := parsed_starts_v hl
  obtain ⟨rbody, rfl⟩ := parsed_starts_v hr
  rcases body_split_cases rbody with ⟨rparts, rnd⟩ | ⟨rc0, rt0, rbe, rnc, rparts⟩
  · have hrr := ParseVersion_nodash rnd
    have hr2 : (fillNumbers (0, 0, 0) 0 (goSplitN '.' 3 rbody)).2 = true := by
      rw [hrr] at hr
      exact hr
    obtain ⟨ra, rb2, rcs, y0, y1, y2, hrpad, hra, hrb, hrc, hrvals⟩ :=
      fill_shape (goSplitN_ne_nil rbody (by omega))
        (goSplitN_length_le rbody (by omega)) hr2
    have hrall := goSplitAll_eq_splitN3 ((fillNumbers_snd _ _ _).mp hr2)
    have hRrec : ParseVersion ('v' :: rbody) =
        { Original := 'v' :: rbody, Parsed := true, Numbers := (y0, y1, y2),
          Pre := none } := by
      rw [hrr, hr2, hrvals]
    rcases body_split_cases lbody with ⟨lparts, lnd⟩ | ⟨lc0, lt0, lbe, lnc, lparts⟩
    · have hll := ParseVersion_nodash lnd
      have hl2 : (fillNumbers (0, 0, 0) 0 (goSplitN '.' 3 lbody)).2 = true := by
        rw [hll] at hl
        exact hl
      obtain ⟨la, lb2, lcs, x0, x1, x2, hlpad, hla, hlb, hlc, hlvals⟩ :=
        fill_shape (goSplitN_ne_nil lbody (by omega))
          (goSplitN_length_le lbody (by omega)) hl2
      have hlall := goSplitAll_eq_splitN3 ((fillNumbers_snd _ _ _).mp hl2)
      have hLrec : ParseVersion ('v' :: lbody) =
          { Original := 'v' :: lbody, Parsed := true, Numbers := (x0, x1, x2),
            Pre := none } := by
        rw [hll, hl2, hlvals]
      have hIN : isNewer ('v' :: lbody) ('v' :: rbody) =
          (match coreLoop 3 [la, lb2, lcs] [ra, rb2, rcs] with
           | some b => b
           | none => false) := by
        simp [isNewer, goTrimPfx_cons_v, lparts, rparts, hlall, hrall, hlpad, hrpad]
      have hG : upgradeGate ('v' :: rbody) ('v' :: lbody) =
          (match (if y0 > x0 then Except.ok 1 else if y0 < x0 then Except.ok (-1)
                 else if y1 > x1 then Except.ok 1 else if y1 < x1 then Except.ok (-1)
                 else if y2 > x2 then Except.ok 1 else if y2 < x2 then Except.ok (-1)
                 else Except.ok 0 : Except (List Char) Int) with
           | .error _ => false
           | .ok cmp => !(decide (cmp ≤ 0) || false)) := by
        simp only [upgradeGate, hRrec, hLrec, versionStruct.Compare, Bool.not_true,
          Bool.or_self, Bool.false_eq_true, if_false, Option.isSome_none]
      rw [hIN, hG, coreLoop_vals hla hlb hlc hra hrb hrc]
      exact ifchain_agree_nopre x0 x1 x2 y0 y1 y2
    · subst lbe
      cases hpt : parsePreRelease lt0 with
      | none =>
        exfalso
        rw [ParseVersion_dash lnc, hpt] at hl
        exact Bool.noConfusion hl
      | some p =>
        have hl2 : (fillNumbers (0, 0, 0) 0 (goSplitN '.' 3 lc0)).2 = true := by
          rw [ParseVersion_dash lnc, hpt] at hl
          exact hl
        obtain ⟨la, lb2, lcs, x0, x1, x2, hlpad, hla, hlb, hlc, hlvals⟩ :=
          fill_shape (goSplitN_ne_nil lc0 (by omega))
            (goSplitN_length_le lc0 (by omega)) hl2
        have hlall := goSplitAll_eq_splitN3 ((fillNumbers_snd _ _ _).mp hl2)
        have hLrec : ParseVersion ('v' :: (lc0 ++ '-' :: lt0)) =
            { Original := 'v' :: (lc0 ++ '-' :: lt0), Parsed := true,
              Numbers := (x0, x1, x2), Pre := some p } := by
          rw [ParseVersion_dash lnc, hpt, hl2, hlvals]
        have hlt0 := parsePreRelease_ne_nil hpt
        have hIN : isNewer ('v' :: (lc0 ++ '-' :: lt0)) ('v' :: rbody) =
            (match coreLoop 3 [la, lb2, lcs] [ra, rb2, rcs] with
             | some b => b
             | none => true) := by
          simp [isNewer, goTrimPfx_cons_v, lparts, rparts, hlall, hrall, hlpad,
            hrpad, hlt0]
        have hG : upgradeGate ('v' :: rbody) ('v' :: (lc0 ++ '-' :: lt0)) =
            (match (if y0 > x0 then Except.ok 1 else if y0 < x0 then Except.ok (-1)
                   else if y1 > x1 then Except.ok 1 else if y1 < x1 then Except.ok (-1)
                   else if y2 > x2 then Except.ok 1 else if y2 < x2 then Except.ok (-1)
                   else Except.ok 1 : Except (List Char) Int) with
             | .error _ => false
             | .ok cmp => !(decide (cmp ≤ 0) || false)) := by
          simp only [upgradeGate, hRrec, hLrec, versionStruct.Compare, Bool.not_true,
            Bool.or_self, Bool.false_eq_true, if_false, Option.isSome_none]
        rw [hIN, hG, coreLoop_vals hla hlb hlc hra hrb hrc]
        exact ifchain_agree_pre x0 x1 x2 y0 y1 y2
  · exfalso
    subst rbe
    cases hpt : parsePreRelease rt0 with
    | none =>
      rw [ParseVersion_dash rnc, hpt] at hr
      exact Bool.noConfusion hr
    | some p =>
      rw [ParseVersion_dash rnc, hpt] at hpre
      simp at hpre

/-- Closed instance of `legacy_gate_agreement`. -/
theorem legacy_gate_agreement_witness :
    isNewer "v1.0.0".data "v1.1.0".data = upgradeGate "v1.1.0".data "v1.0.0".data :=
  legacy_gate_agreement (by decide) (by decide) (by decide)

example : (ParseVersion "v42.8.167".data).Parsed = true := by decide
example : (ParseVersion "v42.8.167".data).Numbers = (42, 8, 167) := by decide
example : (ParseVersion "v9999".data).Numbers = (9999, 0, 0) := by decide
example : (ParseVersion "v1.2.3-rc123".data).Pre =
    some { t := .PrereleaseRC, version := 123 } := by decide
example : (ParseVersion "v12345.1-rc123".data).Numbers = (12345, 1, 0) := by decide
example : (ParseVersion "v0.0.1-rel0".data).Parsed = false := by decide
example : (ParseVersion "v0.0.0.1".data).Parsed = false := by decide
example : (ParseVersion "v1.2.3-beta0".data).Pre =
    some { t := .PrereleaseBeta, version := 0 } := by decide
example :
    (ParseVersion "v0.0.1".data).Compare (ParseVersion "v0.0.1-rc1".data) = .ok 1 := rfl
example :
    (ParseVersion "v0.0.1-rc0".data).Compare (ParseVersion "v0.0.1-rc1".data) =
      .ok (-1) := rfl
